import Mathlib

/-!
Verification of the lumenyx client-side cryptographic accumulator scripts.

The Python sources are shallowly embedded: Python `int` becomes `Nat`
(all values are non-negative and reduced modulo the BN254 scalar field
prime where the source reduces them), byte strings become `List Nat`
with entries below 256, and fallible decoders return `Option`.
Each definition mirrors one function of `scripts/shield.py`,
`scripts/get_merkle_path.py`, `scripts/faucet_pow.py` or
`scripts/unshield.py`.
-/

/-- BN254 scalar field modulus, as in `shield.py` / `get_merkle_path.py`. -/
def FIELD_MODULUS : Nat :=
  21888242871839275222246405745257275088548364400416034343698204186575808495617

/-- Merkle tree depth constant `TREE_DEPTH = 20`. -/
def TREE_DEPTH : Nat := 20

namespace Shield

/-- Loop body state of `poseidon_hash` in `shield.py`: `state` is the running
sponge state and `i` the 0-based position of the next input. -/
def poseidon_hash_aux (state : Nat) (i : Nat) : List Nat → Nat
  | [] => state
  | inp :: rest =>
      let s1 := (state + inp) % FIELD_MODULUS
      let s2 := s1 ^ 5 % FIELD_MODULUS
      let s3 := (s2 + (i + 1)) % FIELD_MODULUS
      poseidon_hash_aux s3 (i + 1) rest

/-- `poseidon_hash` from `shield.py`: iterated add / fifth power / add-index
round function over the field, starting from state 0. -/
def poseidon_hash (inputs : List Nat) : Nat :=
  poseidon_hash_aux 0 0 inputs

/-- `poseidon_hash_pair` from `shield.py`. -/
def poseidon_hash_pair (left right : Nat) : Nat :=
  poseidon_hash [left, right]

/-- `compute_commitment` from `shield.py`: Poseidon(amount, secret, blinding). -/
def compute_commitment (amount secret blinding : Nat) : Nat :=
  poseidon_hash [amount, secret, blinding]

/-- `compute_nullifier` from `shield.py`: Poseidon(commitment, secret). -/
def compute_nullifier (commitment secret : Nat) : Nat :=
  poseidon_hash [commitment, secret]

/-- One bottom-up level step of the full Merkle rebuild: pair consecutive
entries with `poseidon_hash_pair`, an unpaired trailing entry is hashed
with 0 (the `right = current[i+1] if i+1 < len else 0` branch). -/
def buildLevel : List Nat → List Nat
  | [] => []
  | [x] => [poseidon_hash_pair x 0]
  | x :: y :: rest => poseidon_hash_pair x y :: buildLevel rest

/-- `n` applications of `buildLevel`, the `for level in range(TREE_DEPTH)`
loop of `compute_merkle_root`. -/
def buildLevels : Nat → List Nat → List Nat
  | 0, cur => cur
  | n + 1, cur => buildLevels n (buildLevel cur)

/-- `compute_merkle_root` from `shield.py`: append `new_leaf` to the leaf
list, zero-pad to `2 ^ TREE_DEPTH`, hash `TREE_DEPTH` levels bottom-up and
return the first remaining node (0 for an empty level).  The `new_index`
argument is accepted exactly as in the source, which never reads it. -/
def compute_merkle_root (leaves : List Nat) (new_leaf : Nat) (new_index : Nat) : Nat :=
  let all_leaves := leaves ++ [new_leaf]
  let padded := all_leaves ++ List.replicate (2 ^ TREE_DEPTH - all_leaves.length) 0
  (buildLevels TREE_DEPTH padded).headD 0

/-- Inner `for level in range(depth)` loop of the frontier insertion in
`compute_merkle_root_incremental`: at an even index store the node into the
frontier slot and stop, at an odd index fold in the stored left sibling and
climb.  `rem` counts the remaining iterations (`depth - level`). -/
def frontierInsert (filled : List Nat) (node current_idx level rem : Nat) : List Nat :=
  match rem with
  | 0 => filled
  | rem + 1 =>
      if current_idx % 2 = 0 then
        filled.set level node
      else
        frontierInsert filled (poseidon_hash_pair (filled.getD level 0) node)
          (current_idx / 2) (level + 1) rem

/-- Outer `for idx, leaf in enumerate(all_commitments)` loop of
`compute_merkle_root_incremental`. -/
def frontierLoop (filled : List Nat) (idx : Nat) : List Nat → List Nat
  | [] => filled
  | leaf :: rest =>
      frontierLoop (frontierInsert filled leaf idx 0 TREE_DEPTH) (idx + 1) rest

/-- The `zero` accumulator of the root-from-frontier pass: `level`
iterations of `zero = poseidon_hash_pair(zero, zero)` starting from 0. -/
def zeroChain : Nat → Nat
  | 0 => 0
  | l + 1 => poseidon_hash_pair (zeroChain l) (zeroChain l)

/-- Root-from-frontier pass of `compute_merkle_root_incremental`, with
Python `None` embedded as `Option.none` and the `filled[level] != 0`
truthiness test made explicit. -/
def frontierRootAux (filled : List Nat) (node : Option Nat) (level rem : Nat) : Option Nat :=
  match rem with
  | 0 => node
  | rem + 1 =>
      let fl := filled.getD level 0
      let level_node : Option Nat := if fl ≠ 0 then some fl else none
      let node2 : Option Nat :=
        match node, level_node with
        | none, ln => ln
        | some n, some ln => some (poseidon_hash_pair ln n)
        | some n, none => some (poseidon_hash_pair (zeroChain level) n)
      frontierRootAux filled node2 (level + 1) rem

/-- `compute_merkle_root_incremental` from `shield.py`: for at most 1024
leaves delegate to the full rebuild, otherwise run the frontier algorithm
over all leaves and fold the frontier into a root (`node if node else 0`
becomes `Option.getD 0`). -/
def compute_merkle_root_incremental (existing_commitments : List Nat)
    (new_commitment : Nat) : Nat :=
  let num_leaves := existing_commitments.length + 1
  let all_commitments := existing_commitments ++ [new_commitment]
  if num_leaves ≤ 1024 then
    compute_merkle_root existing_commitments new_commitment existing_commitments.length
  else
    let filled := frontierLoop (List.replicate TREE_DEPTH 0) 0 all_commitments
    (frontierRootAux filled none 0 TREE_DEPTH).getD 0

/-- Little-endian bytes of `n`, width `k`: Python `n.to_bytes(k, "little")`
(total, truncating above `256 ^ k`; the scripts only apply it to reduced
field elements, well below that bound). -/
def natToLEBytes : Nat → Nat → List Nat
  | 0, _ => []
  | k + 1, n => n % 256 :: natToLEBytes k (n / 256)

/-- Python `int.from_bytes(b, "little")`. -/
def bytesToNatLE : List Nat → Nat
  | [] => 0
  | b :: rest => b + 256 * bytesToNatLE rest

/-- Big-endian bytes of `n`, width `k`: Python `n.to_bytes(k, "big")`. -/
def natToBEBytes (k n : Nat) : List Nat :=
  (natToLEBytes k n).reverse

/-- Python `int.from_bytes(b, "big")`. -/
def bytesToNatBE (b : List Nat) : Nat :=
  bytesToNatLE b.reverse

/-- `fr_to_hex_le` from `shield.py`, at the byte level: reduce modulo the
field and emit 32 little-endian bytes. -/
def fr_to_hex_le (x : Nat) : List Nat :=
  natToLEBytes 32 (x % FIELD_MODULUS)

/-- `hex_to_fr_le` from `shield.py`, at the byte level: demand exactly 32
bytes, read little-endian, and reject any value that is not strictly below
the modulus (`none` embeds the raised `ValueError`). -/
def hex_to_fr_le (b : List Nat) : Option Nat :=
  if b.length = 32 then
    let x := bytesToNatLE b
    if x < FIELD_MODULUS then some x else none
  else none

/-- `fr_to_h256` from `shield.py`, at the byte level: reduce modulo the
field and emit 32 big-endian bytes. -/
def fr_to_h256 (x : Nat) : List Nat :=
  natToBEBytes 32 (x % FIELD_MODULUS)

/-- `h256_to_fr` from `shield.py`, at the byte level: read big-endian and
reduce modulo the field; the source performs no length or range check and
cannot fail. -/
def h256_to_fr (b : List Nat) : Nat :=
  bytesToNatBE b % FIELD_MODULUS

/-- The round function of the spec, stated independently of the loop of the
source: fold over the inputs paired with their 0-based positions, each step
adding the input, raising to the fifth power and adding the 1-based
position, all modulo the field. -/
def poseidon_ref (inputs : List Nat) : Nat :=
  inputs.enum.foldl
    (fun state p =>
      (((state + p.2) % FIELD_MODULUS) ^ 5 % FIELD_MODULUS + (p.1 + 1)) % FIELD_MODULUS)
    0

end Shield

namespace MerklePathScript

/-- Loop body of `poseidon_hash` in `get_merkle_path.py`, which computes the
fifth power as two squarings and a multiplication instead of `pow`. -/
def poseidon_hash_aux (state : Nat) (i : Nat) : List Nat → Nat
  | [] => state
  | inp :: rest =>
      let s1 := (state + inp) % FIELD_MODULUS
      let x2 := s1 * s1 % FIELD_MODULUS
      let x4 := x2 * x2 % FIELD_MODULUS
      let s2 := x4 * s1 % FIELD_MODULUS
      let s3 := (s2 + (i + 1)) % FIELD_MODULUS
      poseidon_hash_aux s3 (i + 1) rest

/-- `poseidon_hash` from `get_merkle_path.py`. -/
def poseidon_hash (inputs : List Nat) : Nat :=
  poseidon_hash_aux 0 0 inputs

/-- One level step of `build_merkle_tree` in `get_merkle_path.py`:
consecutive pairs hashed with its `poseidon_hash`, a trailing unpaired
entry hashed with 0. -/
def buildLevel : List Nat → List Nat
  | [] => []
  | [x] => [poseidon_hash [x, 0]]
  | x :: y :: rest => poseidon_hash [x, y] :: buildLevel rest

/-- Length of a level after one pairing step. -/
theorem buildLevel_length : ∀ xs : List Nat, (buildLevel xs).length = (xs.length + 1) / 2
  | [] => by simp [buildLevel]
  | [x] => by simp [buildLevel]
  | x :: y :: rest => by
      simp only [buildLevel, List.length_cons, buildLevel_length rest]
      omega

/-- The `while len(current) > 1` loop of `build_merkle_tree`: the sequence
of levels strictly above the leaves. -/
def treeLevels (current : List Nat) : List (List Nat) :=
  if h : 1 < current.length then
    let next := buildLevel current
    next :: treeLevels next
  else []
termination_by current.length
decreasing_by
  simp only [buildLevel_length]
  omega

/-- `build_merkle_tree` from `get_merkle_path.py`: the leaves followed by
every hashed level up to the root. -/
def build_merkle_tree (leaves : List Nat) : List (List Nat) :=
  leaves :: treeLevels leaves

/-- The `for level in tree[:-1]` loop of `get_merkle_path`: record, per
level, the sibling (index `idx - 1` for a right child, `idx + 1` for a left
child, 0 when out of range) and the is-right flag, then halve the index. -/
def pathLoop : List (List Nat) → Nat → List Nat × List Bool
  | [], _ => ([], [])
  | level :: rest, idx =>
      let sibling_idx := if idx % 2 = 1 then idx - 1 else idx + 1
      let sibling := level.getD sibling_idx 0
      let r := pathLoop rest (idx / 2)
      (sibling :: r.1, decide (idx % 2 = 1) :: r.2)

/-- `get_merkle_path` from `get_merkle_path.py`: walk every tree level
except the last. -/
def get_merkle_path (tree : List (List Nat)) (leaf_index : Nat) : List Nat × List Bool :=
  pathLoop tree.dropLast leaf_index

end MerklePathScript

namespace FaucetPow

/-- Fuel-driven halving loop computing Python `int.bit_length`; the fuel
argument only bounds the recursion and `n` itself is always enough fuel. -/
def bitLenAux : Nat → Nat → Nat
  | 0, _ => 0
  | fuel + 1, n => if n = 0 then 0 else bitLenAux fuel (n / 2) + 1

/-- Python `int.bit_length`: number of binary digits, 0 for 0. -/
def bit_length (n : Nat) : Nat :=
  bitLenAux n n

/-- `count_leading_zero_bits` from `faucet_pow.py`: 8 per leading zero
byte, plus `8 - bit_length` at the first nonzero byte, stopping there. -/
def count_leading_zero_bits : List Nat → Nat
  | [] => 0
  | byte :: rest =>
      if byte = 0 then 8 + count_leading_zero_bits rest
      else 8 - bit_length byte

/-- The `while True` search of `find_pow`, made total by a fuel bound on
the number of attempts; `blake` abstracts the external `blake2b-256`
primitive of `hashlib`, and each attempt hashes the account bytes followed
by the 8-byte little-endian nonce, exactly as the source builds `data`. -/
def find_pow_aux (blake : List Nat → List Nat) (account_bytes : List Nat)
    (difficulty : Nat) : Nat → Nat → Option Nat
  | 0, _ => none
  | fuel + 1, nonce =>
      let data := account_bytes ++ Shield.natToLEBytes 8 nonce
      if difficulty ≤ count_leading_zero_bits (blake data) then some nonce
      else find_pow_aux blake account_bytes difficulty fuel (nonce + 1)

/-- `find_pow` from `faucet_pow.py`: sequential search starting at nonce 0. -/
def find_pow (blake : List Nat → List Nat) (account_bytes : List Nat)
    (difficulty fuel : Nat) : Option Nat :=
  find_pow_aux blake account_bytes difficulty fuel 0

end FaucetPow

namespace UnshieldFlow

/-- External interactions performed by `main` in `unshield.py`, in source
order: the chain queries, the proving subprocess, and the final extrinsic
submission. -/
inductive UEvent where
  | queryNoteCount
  | queryCommitment
  | queryCurrentRoot
  | querySpentNullifiers
  | runProver
  | submitExtrinsic
deriving DecidableEq

/-- Control-flow slice of `main` in `unshield.py` over its external
effects: query the chain, compute the nullifier from the note, check the
spent set and abort (`sys.exit(1)`) when the nullifier is spent, otherwise
require the proving CLI, run it, and submit.  `isSpent` is the
`SpentNullifiers` storage query, `zkExists` the `ZK_CLI.exists()` check and
`proveOk` the prover's return-code test. -/
def unshield_flow (amount secret blinding : Nat) (isSpent : Nat → Bool)
    (zkExists proveOk : Bool) : List UEvent × Option String :=
  let commitment := Shield.poseidon_hash [amount, secret, blinding]
  let nullifier := Shield.poseidon_hash [commitment, secret]
  let pre := [UEvent.queryNoteCount, UEvent.queryCommitment, UEvent.queryCurrentRoot,
    UEvent.querySpentNullifiers]
  if isSpent nullifier then (pre, some "AlreadySpent")
  else if !zkExists then (pre, some "ZkCliMissing")
  else if !proveOk then (pre ++ [UEvent.runProver], some "ProvingFailure")
  else (pre ++ [UEvent.runProver, UEvent.submitExtrinsic], none)

end UnshieldFlow

namespace Shield

/-- Accumulator form of the chain of empty-subtree hashes: `pairIter n z`
hashes `z` with itself `n` times. -/
def pairIter : Nat → Nat → Nat
  | 0, z => z
  | n + 1, z => pairIter n (poseidon_hash_pair z z)

/-- `frontierRootAux` with the per-level zero-subtree hash carried along as
an accumulator instead of being recomputed by `zeroChain` at each level;
this is only a device to evaluate the frontier root efficiently. -/
def frontierRootMemo (filled : List Nat) : Option Nat → Nat → Nat → Nat → Option Nat
  | node, _level, 0, _z => node
  | node, level, rem + 1, z =>
      let fl := filled.getD level 0
      let level_node : Option Nat := if fl ≠ 0 then some fl else none
      let node2 : Option Nat :=
        match node, level_node with
        | none, ln => ln
        | some n, some ln => some (poseidon_hash_pair ln n)
        | some n, none => some (poseidon_hash_pair z n)
      frontierRootMemo filled node2 (level + 1) rem (poseidon_hash_pair z z)

/-- The memoized frontier-root pass agrees with the source's pass. -/
theorem frontierRootAux_eq_memo (filled : List Nat) :
    ∀ (rem : Nat) (node : Option Nat) (level : Nat),
      frontierRootAux filled node level rem =
        frontierRootMemo filled node level rem (zeroChain level) := by
  intro rem
  induction rem with
  | zero => intro node level; rfl
  | succ k ih =>
      intro node level
      simp only [frontierRootAux, frontierRootMemo]
      rw [ih]
      rfl

/-- Pairing a constant level leaves a constant level of half the length. -/
theorem buildLevel_replicate (m z : Nat) :
    buildLevel (List.replicate (2 * m) z) =
      List.replicate m (poseidon_hash_pair z z) := by
  induction m with
  | zero => rfl
  | succ k ih =>
      have h2 : 2 * (k + 1) = 2 * k + 1 + 1 := by ring
      rw [h2]
      simp only [List.replicate_succ, buildLevel, List.replicate]
      rw [ih]

/-- Hashing `n` levels of a constant level of width `2 ^ n` collapses to
the iterated self-hash of the constant. -/
theorem buildLevels_replicate (n : Nat) :
    ∀ z : Nat, buildLevels n (List.replicate (2 ^ n) z) = [pairIter n z] := by
  induction n with
  | zero => intro z; rfl
  | succ k ih =>
      intro z
      show buildLevels k (buildLevel (List.replicate (2 ^ (k + 1)) z)) = _
      have h2 : 2 ^ (k + 1) = 2 * 2 ^ k := by rw [Nat.pow_succ]; ring
      rw [h2, buildLevel_replicate, ih]
      rfl

/-- Full rebuild over 1024 zero commitments plus one more zero leaf: the
root is the depth-20 empty-subtree hash. -/
theorem full_root_zero_leaves :
    compute_merkle_root (List.replicate 1024 0) 0 1024 = pairIter 20 0 := by
  have hlen : ((List.replicate 1024 (0 : Nat) ++ [0]).length) = 1025 := by
    simp only [List.length_append, List.length_replicate, List.length_cons,
      List.length_nil]
  simp only [compute_merkle_root]
  rw [hlen, show TREE_DEPTH = 20 from rfl,
    show (2 ^ 20 - 1025 : Nat) = 1047551 from by norm_num,
    ← List.replicate_succ' 1024 (0 : Nat), ← List.replicate_add,
    show (1024 + 1 + 1047551 : Nat) = 2 ^ 20 from by norm_num,
    buildLevels_replicate]
  rfl

/-- Incremental insertion of the same 1025th zero leaf, rewritten to the
memoized frontier-root pass. -/
theorem inc_root_zero_leaves :
    compute_merkle_root_incremental (List.replicate 1024 0) 0 =
      (frontierRootMemo
        (frontierLoop (List.replicate 20 0) 0 (List.replicate 1024 0 ++ [0]))
        none 0 20 0).getD 0 := by
  simp only [compute_merkle_root_incremental]
  rw [List.length_replicate, if_neg (by omega), show TREE_DEPTH = 20 from rfl,
    frontierRootAux_eq_memo]
  rfl

/-- Frontier insertions distribute over list concatenation. -/
theorem frontierLoop_append :
    ∀ (xs ys filled : List Nat) (idx : Nat),
      frontierLoop filled idx (xs ++ ys) =
        frontierLoop (frontierLoop filled idx xs) (idx + xs.length) ys := by
  intro xs
  induction xs with
  | nil => intro ys filled idx; simp [frontierLoop]
  | cons x rest ih =>
      intro ys filled idx
      simp only [List.cons_append, frontierLoop, List.append_eq, ih, List.length_cons]
      rw [show idx + (rest.length + 1) = idx + 1 + rest.length from by omega]

/-- The frontier reached after inserting only zero leaves: levels up to `j`
hold the empty-subtree hash of their height, higher levels still hold the
initial zero. -/
def frontierZeros (j : Nat) : List Nat :=
  (List.range 20).map (fun L => if L ≤ j then pairIter L 0 else 0)

/-- The frontier after the first 1024 zero-leaf insertions, evaluated in
chunks of 64 insertions to keep each evaluation shallow. -/
theorem frontier_after_1024 :
    frontierLoop (List.replicate 20 0) 0 (List.replicate 1024 0) = frontierZeros 10 := by
  have step : ∀ (j1 j2 a b : Nat),
      frontierLoop (frontierZeros j1) a (List.replicate 64 0) = frontierZeros j2 →
      frontierLoop (frontierZeros j2) (a + 64) (List.replicate b 0) = frontierZeros 10 →
      frontierLoop (frontierZeros j1) a (List.replicate (64 + b) 0) = frontierZeros 10 := by
    intro j1 j2 a b h1 h2
    rw [List.replicate_add, frontierLoop_append, List.length_replicate, h1]
    exact h2
  rw [show List.replicate 20 (0 : Nat) = frontierZeros 0 from by decide,
    show (1024 : Nat) =
      64 + (64 + (64 + (64 + (64 + (64 + (64 + (64 + (64 + (64 + (64 + (64 +
        (64 + (64 + (64 + (64 + 0))))))))))))))) from rfl]
  apply step 0 6 0 _ (by decide)
  apply step 6 7 _ _ (by decide)
  apply step 7 7 _ _ (by decide)
  apply step 7 8 _ _ (by decide)
  apply step 8 8 _ _ (by decide)
  apply step 8 8 _ _ (by decide)
  apply step 8 8 _ _ (by decide)
  apply step 8 9 _ _ (by decide)
  apply step 9 9 _ _ (by decide)
  apply step 9 9 _ _ (by decide)
  apply step 9 9 _ _ (by decide)
  apply step 9 9 _ _ (by decide)
  apply step 9 9 _ _ (by decide)
  apply step 9 9 _ _ (by decide)
  apply step 9 9 _ _ (by decide)
  apply step 9 10 _ _ (by decide)
  rfl

end Shield

set_option maxRecDepth 4000 in
/-- C1: the full rebuild and the incremental frontier update agree for all
leaf counts up to 1024 — where the incremental function simply delegates to
the full rebuild — but for 1025 leaves (1024 existing zero commitments plus
one more zero leaf) the frontier branch returns a root different from the
full rebuild, so the claimed byte-identity for all N up to 2^20 fails. -/
theorem merkle_full_vs_incremental :
    (∀ (existing : List Nat) (new_commitment : Nat),
        existing.length + 1 ≤ 1024 →
        Shield.compute_merkle_root_incremental existing new_commitment =
          Shield.compute_merkle_root existing new_commitment existing.length)
  ∧ Shield.compute_merkle_root_incremental (List.replicate 1024 0) 0 ≠
      Shield.compute_merkle_root (List.replicate 1024 0) 0 1024 := by
  constructor
  · intro existing new_commitment h
    simp only [Shield.compute_merkle_root_incremental]
    rw [if_pos (by omega)]
  · rw [Shield.inc_root_zero_leaves, Shield.full_root_zero_leaves,
      Shield.frontierLoop_append, List.length_replicate, Nat.zero_add,
      Shield.frontier_after_1024]
    decide

/-- Witness for C1 at a concrete small input: one leaf into an empty tree. -/
theorem merkle_full_vs_incremental_witness :
    (([] : List Nat).length + 1 ≤ 1024) ∧
    Shield.compute_merkle_root_incremental [] 7 = Shield.compute_merkle_root [] 7 0 :=
  ⟨by decide, merkle_full_vs_incremental.1 [] 7 (by decide)⟩

/-- The loop of `poseidon_hash`, started at state `s` and position `i`,
is the fold of the spec's round function over the position-paired inputs. -/
theorem poseidon_aux_enumFrom :
    ∀ (xs : List Nat) (s i : Nat),
      Shield.poseidon_hash_aux s i xs =
        (List.enumFrom i xs).foldl
          (fun state p =>
            (((state + p.2) % FIELD_MODULUS) ^ 5 % FIELD_MODULUS + (p.1 + 1)) %
              FIELD_MODULUS) s := by
  intro xs
  induction xs with
  | nil => intro s i; rfl
  | cons x rest ih =>
      intro s i
      simp only [Shield.poseidon_hash_aux, List.enumFrom, List.foldl, ih]

/-- C2: for every input list, `poseidon_hash` equals the reference
iteration of the spec — start at 0 and, per input, add it, raise the state
to the fifth power and add the 1-based position, all modulo the prime. -/
theorem poseidon_hash_matches_reference :
    ∀ inputs : List Nat, Shield.poseidon_hash inputs = Shield.poseidon_ref inputs := by
  intro inputs
  show Shield.poseidon_hash_aux 0 0 inputs = _
  rw [poseidon_aux_enumFrom]
  rfl

/-- Fifth power computed as two squarings and a final multiplication, all
reduced modulo `M`, equals the direct modular fifth power. -/
theorem fifth_power_by_squaring (a M : Nat) :
    (a * a % M) * (a * a % M) % M * a % M = a ^ 5 % M := by
  rw [← Nat.mul_mod, Nat.mod_mul_mod]
  congr 1
  ring

/-- The two poseidon loops agree step by step from any state and index. -/
theorem poseidon_aux_pow_eq_sq :
    ∀ (xs : List Nat) (s i : Nat),
      Shield.poseidon_hash_aux s i xs = MerklePathScript.poseidon_hash_aux s i xs := by
  intro xs
  induction xs with
  | nil => intro s i; rfl
  | cons x rest ih =>
      intro s i
      simp only [Shield.poseidon_hash_aux, MerklePathScript.poseidon_hash_aux, ih,
        fifth_power_by_squaring]

/-- C7: the `shield.py` hash (modular `pow(state, 5, p)`) and the
`get_merkle_path.py` hash (fifth power via two squarings) compute the same
function on every input list. -/
theorem poseidon_two_implementations_agree :
    ∀ inputs : List Nat,
      Shield.poseidon_hash inputs = MerklePathScript.poseidon_hash inputs := by
  intro inputs
  exact poseidon_aux_pow_eq_sq inputs 0 0

/-- C4: the commitment hashes (amount, secret, blinding) in exactly that
order, the nullifier hashes (commitment, secret), and in particular for
amount 100 the nullifier is Hash(Hash(100, S, B), S). -/
theorem commitment_nullifier_derivation :
    (∀ amount secret blinding : Nat,
        Shield.compute_commitment amount secret blinding =
          Shield.poseidon_hash [amount, secret, blinding])
  ∧ (∀ commitment secret : Nat,
        Shield.compute_nullifier commitment secret =
          Shield.poseidon_hash [commitment, secret])
  ∧ (∀ S B : Nat,
        Shield.compute_nullifier (Shield.compute_commitment 100 S B) S =
          Shield.poseidon_hash [Shield.poseidon_hash [100, S, B], S]) :=
  ⟨fun _ _ _ => rfl, fun _ _ => rfl, fun _ _ => rfl⟩

/-- C10: `compute_merkle_root` ignores its `new_index` argument entirely —
any two index values give the same root — and the new leaf is always
appended after the existing leaves before zero-padding. -/
theorem compute_merkle_root_ignores_new_index :
    (∀ (leaves : List Nat) (new_leaf i j : Nat),
        Shield.compute_merkle_root leaves new_leaf i =
          Shield.compute_merkle_root leaves new_leaf j)
  ∧ (∀ (leaves : List Nat) (new_leaf i : Nat),
        Shield.compute_merkle_root leaves new_leaf i =
          (Shield.buildLevels TREE_DEPTH ((leaves ++ [new_leaf]) ++
            List.replicate (2 ^ TREE_DEPTH - (leaves ++ [new_leaf]).length) 0)).headD 0) :=
  ⟨fun _ _ _ _ => rfl, fun _ _ _ => rfl⟩

namespace Shield

/-- A width-`k` little-endian encoding has exactly `k` bytes. -/
theorem natToLEBytes_length : ∀ k n : Nat, (natToLEBytes k n).length = k := by
  intro k
  induction k with
  | zero => intro n; rfl
  | succ m ih => intro n; simp only [natToLEBytes, List.length_cons, ih]

/-- Little-endian decode inverts the width-`k` encode below `256 ^ k`. -/
theorem bytesToNatLE_natToLEBytes :
    ∀ (k n : Nat), n < 256 ^ k → bytesToNatLE (natToLEBytes k n) = n := by
  intro k
  induction k with
  | zero =>
      intro n h
      interval_cases n
      rfl
  | succ m ih =>
      intro n h
      have hdiv : n / 256 < 256 ^ m := by
        apply Nat.div_lt_of_lt_mul
        rw [Nat.mul_comm, ← Nat.pow_succ]
        exact h
      simp only [natToLEBytes, bytesToNatLE, ih (n / 256) hdiv]
      omega

end Shield

/-- C8 (amendable part of C3 as well): encoding then decoding a canonical
field element returns it unchanged, in both the little-endian pair
(`fr_to_hex_le` / `hex_to_fr_le`) and the big-endian pair (`fr_to_h256` /
`h256_to_fr`). -/
theorem encode_decode_roundtrip (x : Nat) (h : x < FIELD_MODULUS) :
    Shield.hex_to_fr_le (Shield.fr_to_hex_le x) = some x ∧
    Shield.h256_to_fr (Shield.fr_to_h256 x) = x := by
  have hmod : x % FIELD_MODULUS = x := Nat.mod_eq_of_lt h
  have hlt : x < 256 ^ 32 := lt_trans h (by norm_num [FIELD_MODULUS])
  constructor
  · show Shield.hex_to_fr_le (Shield.natToLEBytes 32 (x % FIELD_MODULUS)) = some x
    rw [hmod]
    simp only [Shield.hex_to_fr_le, Shield.natToLEBytes_length,
      Shield.bytesToNatLE_natToLEBytes 32 x hlt, if_pos rfl, if_pos h]
    simp
  · show Shield.h256_to_fr (Shield.natToBEBytes 32 (x % FIELD_MODULUS)) = x
    rw [hmod]
    show Shield.bytesToNatLE (Shield.natToLEBytes 32 x).reverse.reverse %
        FIELD_MODULUS = x
    rw [List.reverse_reverse, Shield.bytesToNatLE_natToLEBytes 32 x hlt, hmod]

/-- Witness for C8 at the concrete field element 5. -/
theorem encode_decode_roundtrip_witness :
    (5 : Nat) < FIELD_MODULUS ∧
    Shield.hex_to_fr_le (Shield.fr_to_hex_le 5) = some 5 ∧
    Shield.h256_to_fr (Shield.fr_to_h256 5) = 5 :=
  ⟨by decide, encode_decode_roundtrip 5 (by decide)⟩

/-- C3 (amended): the little-endian decoder `hex_to_fr_le` fails exactly on
inputs that are not 32 bytes or encode a value at least the modulus, and on
success returns the unreduced decoded value; the big-endian decoder
`h256_to_fr`, by contrast, never fails and silently reduces modulo the
prime. -/
theorem decoder_error_behavior :
    (∀ b : List Nat,
        Shield.hex_to_fr_le b = none ↔
          (b.length ≠ 32 ∨ FIELD_MODULUS ≤ Shield.bytesToNatLE b))
  ∧ (∀ (b : List Nat) (x : Nat),
        Shield.hex_to_fr_le b = some x →
          x = Shield.bytesToNatLE b ∧ x < FIELD_MODULUS ∧ b.length = 32)
  ∧ (∀ b : List Nat, Shield.h256_to_fr b = Shield.bytesToNatBE b % FIELD_MODULUS) := by
  refine ⟨fun b => ?_, fun b x => ?_, fun _ => rfl⟩
  · simp only [Shield.hex_to_fr_le]
    split_ifs with h1 h2 <;> simp [h1] <;> omega
  · simp only [Shield.hex_to_fr_le]
    split_ifs with h1 h2
    · intro hx
      injection hx with hx
      exact ⟨hx.symm, hx ▸ h2, h1⟩
    · intro hx; cases hx
    · intro hx; cases hx

/-- Witness for C3's amended decoder behavior at the 32-byte little-endian
encoding of 3. -/
theorem decoder_error_behavior_witness :
    Shield.hex_to_fr_le (Shield.natToLEBytes 32 3) = some 3 ∧
    ((3 : Nat) = Shield.bytesToNatLE (Shield.natToLEBytes 32 3) ∧
      (3 : Nat) < FIELD_MODULUS ∧ (Shield.natToLEBytes 32 3).length = 32) :=
  ⟨by decide, decoder_error_behavior.2.1 (Shield.natToLEBytes 32 3) 3 (by decide)⟩

/-- C3 (counterexample): the 32-byte big-endian buffer that encodes the
modulus itself is accepted by `h256_to_fr` and silently reduced to 0
instead of being rejected as non-canonical. -/
theorem h256_to_fr_accepts_noncanonical :
    (Shield.natToBEBytes 32 FIELD_MODULUS).length = 32 ∧
    Shield.bytesToNatBE (Shield.natToBEBytes 32 FIELD_MODULUS) = FIELD_MODULUS ∧
    Shield.h256_to_fr (Shield.natToBEBytes 32 FIELD_MODULUS) = 0 := by
  decide

namespace FaucetPow

/-- The sequential search, started at any nonce, returns the first nonce
from its start whose digest meets the difficulty. -/
theorem find_pow_aux_spec (blake : List Nat → List Nat) (acc : List Nat) (d : Nat) :
    ∀ (fuel n0 n : Nat),
      find_pow_aux blake acc d fuel n0 = some n →
      n0 ≤ n ∧
      d ≤ count_leading_zero_bits (blake (acc ++ Shield.natToLEBytes 8 n)) ∧
      ∀ m, n0 ≤ m → m < n →
        count_leading_zero_bits (blake (acc ++ Shield.natToLEBytes 8 m)) < d := by
  intro fuel
  induction fuel with
  | zero => intro n0 n h; cases h
  | succ k ih =>
      intro n0 n h
      simp only [find_pow_aux] at h
      by_cases hc : d ≤ count_leading_zero_bits (blake (acc ++ Shield.natToLEBytes 8 n0))
      · rw [if_pos hc] at h
        injection h with h
        subst h
        exact ⟨Nat.le_refl n0, hc, fun m hm1 hm2 => absurd hm1 (by omega)⟩
      · rw [if_neg hc] at h
        obtain ⟨h1, h2, h3⟩ := ih (n0 + 1) n h
        refine ⟨by omega, h2, fun m hm1 hm2 => ?_⟩
        by_cases hm : m = n0
        · subst hm; omega
        · exact h3 m (by omega) hm2

end FaucetPow

/-- C6: when the bounded sequential search returns a nonce, its digest of
the account bytes followed by the 8-byte little-endian nonce meets the
difficulty, every smaller nonce fails it, and the leading-zero-bit count of
any byte string is eight per leading zero byte plus `8 - bit_length` of the
first nonzero byte. -/
theorem pow_search_correct :
    (∀ (blake : List Nat → List Nat) (acc : List Nat) (d fuel n : Nat),
        FaucetPow.find_pow blake acc d fuel = some n →
        d ≤ FaucetPow.count_leading_zero_bits
            (blake (acc ++ Shield.natToLEBytes 8 n)) ∧
        ∀ m, m < n →
          FaucetPow.count_leading_zero_bits
            (blake (acc ++ Shield.natToLEBytes 8 m)) < d)
  ∧ (∀ bytes : List Nat,
      FaucetPow.count_leading_zero_bits bytes =
        8 * (bytes.takeWhile (· == 0)).length +
          (match (bytes.dropWhile (· == 0)).head? with
            | some b => 8 - FaucetPow.bit_length b
            | none => 0)) := by
  constructor
  · intro blake acc d fuel n h
    obtain ⟨_, h2, h3⟩ := FaucetPow.find_pow_aux_spec blake acc d fuel 0 n h
    exact ⟨h2, fun m hm => h3 m (Nat.zero_le m) hm⟩
  · intro bytes
    induction bytes with
    | nil => rfl
    | cons byte rest ih =>
        by_cases hb : byte = 0
        · subst hb
          simp only [FaucetPow.count_leading_zero_bits, if_pos rfl, ih,
            List.takeWhile_cons, List.dropWhile_cons]
          norm_num
          omega
        · simp only [FaucetPow.count_leading_zero_bits, if_neg hb,
            List.takeWhile_cons, List.dropWhile_cons]
          have hb2 : (byte == 0) = false := by simp [hb]
          simp [hb2]

/-- Witness for C6: a hash that is constantly zero meets difficulty 5 at
nonce 0 immediately. -/
theorem pow_search_correct_witness :
    FaucetPow.find_pow (fun _ => List.replicate 32 0) [] 5 1 = some 0 ∧
    5 ≤ FaucetPow.count_leading_zero_bits
        ((fun _ => List.replicate 32 (0 : Nat)) ([] ++ Shield.natToLEBytes 8 0)) :=
  ⟨by decide,
    (pow_search_correct.1 (fun _ => List.replicate 32 0) [] 5 1 0 (by decide)).1⟩

/-- C9: when the note's nullifier is already in the spent set, the unshield
flow fails with AlreadySpent and its event trace contains the spent-set
query but neither a prover invocation nor a submission. -/
theorem unshield_spent_checked_before_proving :
    ∀ (amount secret blinding : Nat) (isSpent : Nat → Bool) (zkExists proveOk : Bool),
      isSpent (Shield.poseidon_hash
        [Shield.poseidon_hash [amount, secret, blinding], secret]) = true →
      (UnshieldFlow.unshield_flow amount secret blinding isSpent zkExists proveOk).2 =
          some "AlreadySpent" ∧
      UnshieldFlow.UEvent.runProver ∉
        (UnshieldFlow.unshield_flow amount secret blinding isSpent zkExists proveOk).1 ∧
      UnshieldFlow.UEvent.submitExtrinsic ∉
        (UnshieldFlow.unshield_flow amount secret blinding isSpent zkExists proveOk).1 ∧
      UnshieldFlow.UEvent.querySpentNullifiers ∈
        (UnshieldFlow.unshield_flow amount secret blinding isSpent zkExists proveOk).1 := by
  intro amount secret blinding isSpent zkExists proveOk h
  simp only [UnshieldFlow.unshield_flow, h, if_pos]
  refine ⟨?_, ?_, ?_, ?_⟩ <;> simp

/-- XOR with 1 is the bitwise complement inside a sibling pair: it
subtracts 1 from an odd index and adds 1 to an even one. -/
theorem xor_one_parity (n : Nat) : n ^^^ 1 = if n % 2 = 1 then n - 1 else n + 1 := by
  rcases Nat.even_or_odd n with ⟨k, hk⟩ | ⟨k, hk⟩
  · subst hk
    have hx : (k + k) ^^^ 1 = k + k + 1 := by
      calc (k + k) ^^^ 1 = Nat.bit false k ^^^ Nat.bit true 0 := by
            simp [Nat.bit_val]; omega
        _ = Nat.bit (false != true) (k ^^^ 0) := Nat.xor_bit false k true 0
        _ = k + k + 1 := by simp [Nat.bit_val]; omega
    rw [hx, if_neg (by omega)]
  · subst hk
    have hx : (2 * k + 1) ^^^ 1 = 2 * k := by
      calc (2 * k + 1) ^^^ 1 = Nat.bit true k ^^^ Nat.bit true 0 := by
            simp [Nat.bit_val]
        _ = Nat.bit (true != true) (k ^^^ 0) := Nat.xor_bit true k true 0
        _ = 2 * k := by simp [Nat.bit_val]
    rw [hx, if_pos (by omega)]
    omega

/-- Reading `dropLast` below the last position reads the original list. -/
theorem dropLast_getD :
    ∀ (l : List (List Nat)) (i : Nat), i < l.length - 1 →
      l.dropLast.getD i [] = l.getD i [] := by
  intro l
  induction l with
  | nil => intro i h; simp at h
  | cons x rest ih =>
      intro i h
      cases rest with
      | nil => simp at h
      | cons y t =>
          cases i with
          | zero => rfl
          | succ m =>
              have := ih m (by simp at h ⊢; omega)
              simp only [List.dropLast_cons₂, List.getD_cons_succ]
              exact this

/-- Per level `L`, the path loop records the sibling at the complemented
index `(idx >> L) xor 1` and the is-right flag of `idx >> L`. -/
theorem pathLoop_spec :
    ∀ (levels : List (List Nat)) (idx L : Nat), L < levels.length →
      (MerklePathScript.pathLoop levels idx).1[L]? =
        some ((levels.getD L []).getD ((idx / 2 ^ L) ^^^ 1) 0) ∧
      (MerklePathScript.pathLoop levels idx).2[L]? =
        some (decide ((idx / 2 ^ L) % 2 = 1)) := by
  intro levels
  induction levels with
  | nil => intro idx L h; simp at h
  | cons lvl rest ih =>
      intro idx L h
      cases L with
      | zero =>
          simp only [MerklePathScript.pathLoop, List.getElem?_cons_zero,
            List.getD_cons_zero, Nat.pow_zero, Nat.div_one, xor_one_parity idx]
          simp
      | succ M =>
          have hM : M < rest.length := by simp at h; omega
          obtain ⟨h1, h2⟩ := ih (idx / 2) M hM
          have hdiv : idx / 2 / 2 ^ M = idx / 2 ^ (M + 1) := by
            rw [Nat.div_div_eq_div_mul, pow_succ']
          constructor
          · simp only [MerklePathScript.pathLoop, List.getElem?_cons_succ,
              List.getD_cons_succ]
            rw [← hdiv]
            exact h1
          · simp only [MerklePathScript.pathLoop, List.getElem?_cons_succ,
              List.getD_cons_succ]
            rw [← hdiv]
            exact h2

/-- C5: path extraction returns, at every level `L` of any tree, the
sibling at the bitwise-complement index within the pair and the flag for
the current index being a right child, the index moving to the parent by
halving; and on the depth-2 tree over leaves [A, B, 0, 0] the root is
Hash(Hash(A,B), Hash(0,0)) and the path of leaf 0 is siblings
[B, Hash(0,0)] with indicator bits [false, false]. -/
theorem merkle_path_extraction :
    (∀ (tree : List (List Nat)) (idx L : Nat),
        L < tree.length - 1 →
        (MerklePathScript.get_merkle_path tree idx).1[L]? =
          some ((tree.getD L []).getD ((idx / 2 ^ L) ^^^ 1) 0) ∧
        (MerklePathScript.get_merkle_path tree idx).2[L]? =
          some (decide ((idx / 2 ^ L) % 2 = 1)))
  ∧ (∀ A B : Nat,
      MerklePathScript.build_merkle_tree [A, B, 0, 0] =
        [[A, B, 0, 0],
         [MerklePathScript.poseidon_hash [A, B], MerklePathScript.poseidon_hash [0, 0]],
         [MerklePathScript.poseidon_hash
            [MerklePathScript.poseidon_hash [A, B],
             MerklePathScript.poseidon_hash [0, 0]]]] ∧
      MerklePathScript.get_merkle_path (MerklePathScript.build_merkle_tree [A, B, 0, 0]) 0 =
        ([B, MerklePathScript.poseidon_hash [0, 0]], [false, false])) := by
  constructor
  · intro tree idx L h
    have hlen : L < tree.dropLast.length := by simp; omega
    obtain ⟨h1, h2⟩ := pathLoop_spec tree.dropLast idx L hlen
    rw [dropLast_getD tree L h] at h1
    exact ⟨h1, h2⟩
  · intro A B
    have htree : MerklePathScript.build_merkle_tree [A, B, 0, 0] =
        [[A, B, 0, 0],
         [MerklePathScript.poseidon_hash [A, B], MerklePathScript.poseidon_hash [0, 0]],
         [MerklePathScript.poseidon_hash
            [MerklePathScript.poseidon_hash [A, B],
             MerklePathScript.poseidon_hash [0, 0]]]] := by
      simp [MerklePathScript.build_merkle_tree, MerklePathScript.treeLevels,
        MerklePathScript.buildLevel]
    refine ⟨htree, ?_⟩
    rw [htree]
    rfl

/-- Witness for C5's general part at a concrete two-level tree. -/
theorem merkle_path_extraction_witness :
    (0 : Nat) < ([[5, 7], [9]] : List (List Nat)).length - 1 ∧
    ((MerklePathScript.get_merkle_path [[5, 7], [9]] 0).1[0]? =
        some ((([[5, 7], [9]] : List (List Nat)).getD 0 []).getD ((0 / 2 ^ 0) ^^^ 1) 0) ∧
      (MerklePathScript.get_merkle_path [[5, 7], [9]] 0).2[0]? =
        some (decide ((0 / 2 ^ 0) % 2 = 1))) :=
  ⟨by decide, merkle_path_extraction.1 [[5, 7], [9]] 0 0 (by decide)⟩

/-- Witness for C9: a spent set containing everything rejects the note
before proving. -/
theorem unshield_spent_checked_before_proving_witness :
    (UnshieldFlow.unshield_flow 0 0 0 (fun _ => true) true true).2 =
        some "AlreadySpent" ∧
    UnshieldFlow.UEvent.runProver ∉
      (UnshieldFlow.unshield_flow 0 0 0 (fun _ => true) true true).1 ∧
    UnshieldFlow.UEvent.submitExtrinsic ∉
      (UnshieldFlow.unshield_flow 0 0 0 (fun _ => true) true true).1 ∧
    UnshieldFlow.UEvent.querySpentNullifiers ∈
      (UnshieldFlow.unshield_flow 0 0 0 (fun _ => true) true true).1 :=
  unshield_spent_checked_before_proving 0 0 0 (fun _ => true) true true rfl
